import Mathlib

set_option maxHeartbeats 1000000
set_option maxRecDepth 8000

/- Verification development for the docling-processor service.

   Source files embedded:
   - services/docling-processor/app.py
   - services/docling-processor/processors/docling_processor.py
   - services/docling-processor/models/document_models.py

   Strings are modelled as `List Char`.  Python's `str.split(sep)`,
   `str.strip()`, `str.lower()`, `'x' in s`, `sep.join(...)` are embedded as
   executable Lean functions below.  A document produced by the external
   docling converter is modelled as a record of its dynamically probed
   attributes: an attribute guarded by `hasattr` in the source becomes an
   `Option` field.  Code that can raise is total here; the exception-driven
   fallback paths of the source are noted where they matter. -/

/- Python whitespace for `str.strip()`: space, tab, newline, carriage
   return, vertical tab, form feed. -/
def isWS (c : Char) : Bool :=
  decide (c = ' ' ∨ c = '\t' ∨ c = '\n' ∨ c = '\r' ∨ c = '\x0b' ∨ c = '\x0c')

/- Python `str.strip()`: drop leading then trailing whitespace. -/
def strip (l : List Char) : List Char :=
  ((l.dropWhile isWS).reverse.dropWhile isWS).reverse

/- Python `str.lower()` (ASCII-adequate embedding). -/
def lowerL (l : List Char) : List Char := l.map Char.toLower

def hasPrefixL : List Char → List Char → Bool
  | [], _ => true
  | _ :: _, [] => false
  | x :: xs, y :: ys => decide (x = y) && hasPrefixL xs ys

/- Python `pat in s` substring test. -/
def isSubstr (pat : List Char) : List Char → Bool
  | [] => pat.isEmpty
  | c :: rest => hasPrefixL pat (c :: rest) || isSubstr pat rest

/- Python `s.endswith(pat)`. -/
def hasSuffixL (pat l : List Char) : Bool := hasPrefixL pat.reverse l.reverse

def consHead (c : Char) : List (List Char) → List (List Char)
  | [] => [[c]]
  | g :: gs => (c :: g) :: gs

/- Python `s.split('\n\n')`: split on each non-overlapping occurrence of the
   double newline, scanning left to right. -/
def splitNN : List Char → List (List Char)
  | [] => [[]]
  | [c] => [[c]]
  | a :: b :: rest =>
    if a = '\n' ∧ b = '\n' then [] :: splitNN rest
    else consHead a (splitNN (b :: rest))

/- Python `'\n\n'.join(...)`. -/
def joinNN : List (List Char) → List Char
  | [] => []
  | [p] => p
  | p :: q :: rest => p ++ '\n' :: '\n' :: joinNN (q :: rest)

/- Python `' '.join(...)`. -/
def joinSpace : List (List Char) → List Char
  | [] => []
  | [p] => p
  | p :: q :: rest => p ++ ' ' :: joinSpace (q :: rest)

/- Sum of the lengths of a list of strings. -/
def sumLen : List (List Char) → Nat
  | [] => 0
  | p :: rest => p.length + sumLen rest

/- `noNN l` holds when `l` has no two adjacent newline characters, i.e. no
   occurrence of the paragraph separator. -/
def noNN : List Char → Bool
  | [] => true
  | [_] => true
  | a :: b :: rest => !(decide (a = '\n') && decide (b = '\n')) && noNN (b :: rest)

/- ### Data model (document_models.py plus the duck-typed docling document) -/

structure TextItem where
  text : List Char
  label : Option (List Char)
  page_no : Option Int
deriving DecidableEq

structure Table where
  export_to_markdown : Option (List Char)
  export_to_html : Option (List Char)
  str_repr : List Char
  page_no : Option Int
deriving DecidableEq

/- The externally produced document object.  `hasattr`-guarded collections
   become `Option` fields; pages and pictures are only ever counted, so they
   are modelled as lists of units.  `export_to_markdown` is the markdown
   exporter's output for this document. -/
structure Document where
  texts : Option (List TextItem)
  tables : Option (List Table)
  pictures : Option (List Unit)
  pages : Option (List Unit)
  export_to_markdown : List Char
deriving DecidableEq

/- ### app.py : create_llm_chunks (paragraph-aware chunker) -/

structure Chunk where
  text : List Char
  size : Nat
  type : String
deriving DecidableEq

/- The accumulation loop of create_llm_chunks: `cur` is `current_chunk`,
   `sz` is `current_size`.  A paragraph is stripped; empty ones are skipped;
   if adding one would push the running size past `maxSize` and the running
   chunk is non-empty, the running chunk is flushed first. -/
def chunkLoop (maxSize : Nat) : List (List Char) → List (List Char) → Nat → List Chunk
  | [], cur, sz =>
    if cur.isEmpty then [] else [⟨joinNN cur, sz, "paragraph_group"⟩]
  | q :: rest, cur, sz =>
    let p := strip q
    if p.isEmpty then chunkLoop maxSize rest cur sz
    else if sz + p.length > maxSize ∧ cur ≠ [] then
      ⟨joinNN cur, sz, "paragraph_group"⟩ :: chunkLoop maxSize rest [p] p.length
    else chunkLoop maxSize rest (cur ++ [p]) (sz + p.length)

/- app.py create_llm_chunks, happy path (the word_split / error fallbacks
   are reachable only through exceptions, which the total embedding has
   none of). -/
def create_llm_chunks (doc : Document) (max_chunk_size : Nat) : List Chunk :=
  chunkLoop max_chunk_size (splitNN doc.export_to_markdown) [] 0

/- The sequence of trimmed non-empty paragraphs of a markdown text, as the
   chunker's loop sees them. -/
def trimmedParagraphs (md : List Char) : List (List Char) :=
  ((splitNN md).map strip).filter (fun p => !p.isEmpty)

/- ### app.py : get_heading_level, get_page_count, has_tables, has_images -/

def get_heading_level (label : List Char) : Nat :=
  let ll := lowerL label
  if isSubstr ("title".toList) ll then 1
  else if isSubstr ("h1".toList) ll then 1
  else if isSubstr ("h2".toList) ll then 2
  else if isSubstr ("h3".toList) ll then 3
  else if isSubstr ("h4".toList) ll then 4
  else 2

def get_page_count (doc : Document) : Nat :=
  match doc.pages with
  | some pgs => pgs.length
  | none => 1

def has_tables (doc : Document) : Bool :=
  match doc.tables with
  | some tbls => decide (tbls.length > 0)
  | none => false

def has_images (doc : Document) : Bool :=
  match doc.pictures with
  | some pics => decide (pics.length > 0)
  | none => false

/- ### app.py : extract_document_structure -/

structure SectionEntry where
  level : Nat
  text : List Char
  type : List Char
deriving DecidableEq

structure TableEntry where
  index : Nat
  content : List Char
  description : List Char
deriving DecidableEq

/- The JSON key of the second field is "structure" in the source; that word
   is a Lean keyword, hence the field name `sections`-style rename here
   applies only to the record holding it. -/
structure DocStructure where
  title : Option (List Char)
  sections : List SectionEntry
  tables : List TableEntry
  key_elements : List Unit
deriving DecidableEq

/- One text item's contribution to structure["sections"]: kept when the item
   has a truthy label containing "title" or "heading" case-insensitively. -/
def sectionOf (ti : TextItem) : Option SectionEntry :=
  match ti.label with
  | none => none
  | some l =>
    if l ≠ [] ∧ (isSubstr ("title".toList) (lowerL l) ∨ isSubstr ("heading".toList) (lowerL l))
    then some ⟨get_heading_level l, strip ti.text, l⟩
    else none

def tableEntriesLoop (i : Nat) : List Table → List TableEntry
  | [] => []
  | tb :: rest =>
    ⟨i, (match tb.export_to_markdown with | some m => m | none => tb.str_repr),
      ("Table ".toList) ++ (Nat.repr (i + 1)).toList ++ (" from document".toList)⟩
      :: tableEntriesLoop (i + 1) rest

/- app.py extract_document_structure.  structure["title"] is initialised to
   None and never assigned anywhere in the function body. -/
def extract_document_structure (doc : Document) : DocStructure :=
  ⟨none,
   (match doc.texts with | none => [] | some ts => ts.filterMap sectionOf),
   (match doc.tables with | none => [] | some tbls => tableEntriesLoop 0 tbls),
   []⟩

/- ### docling_processor.py : DoclingProcessor._create_chunks -/

structure ChunkMeta where
  page_number : Option Int
  chunk_index : Option Nat
  table_index : Option Nat
  chunk_type : String
deriving DecidableEq

/- models/document_models.py DocumentChunk (id, content, metadata,
   page_number, chunk_type). -/
structure DocumentChunk where
  id : List Char
  content : List Char
  metadata : ChunkMeta
  page_number : Option Int
  chunk_type : String
deriving DecidableEq

/- Python truthiness of `current_page`: falsy when None or 0. -/
def pageTruthy : Option Int → Prop
  | none => False
  | some n => n ≠ 0

instance : (o : Option Int) → Decidable (pageTruthy o)
  | none => isFalse id
  | some n => inferInstanceAs (Decidable (n ≠ 0))

/- The text-item loop of _create_chunks.  `acc` is `current_chunk` (the
   stripped texts accumulated so far), `curPage` is `current_page`, `k` is
   `chunk_id`.  The flush condition is evaluated before the current item is
   appended, and `current_page` is reassigned on every kept item.  The
   nested `if current_chunk:` of the source is folded into the conjunct
   `acc ≠ []` (when the outer condition holds but the chunk is empty, the
   source's only effect is the append). -/
def createChunksLoop (docId : List Char) :
    List TextItem → List (List Char) → Option Int → Nat → List DocumentChunk
  | [], acc, curPage, k =>
    if acc.isEmpty then []
    else [⟨docId ++ ("_chunk_".toList) ++ (Nat.repr k).toList, joinSpace acc,
           ⟨curPage, some k, none, "text"⟩, curPage, "text"⟩]
  | ti :: rest, acc, curPage, k =>
    let t := strip ti.text
    if t.isEmpty then createChunksLoop docId rest acc curPage k
    else if ((pageTruthy curPage ∧ ti.page_no ≠ curPage) ∨ (joinSpace acc).length > 1000)
              ∧ acc ≠ [] then
      ⟨docId ++ ("_chunk_".toList) ++ (Nat.repr k).toList, joinSpace acc,
        ⟨curPage, some k, none, "text"⟩, curPage, "text"⟩
        :: createChunksLoop docId rest [t] ti.page_no (k + 1)
    else createChunksLoop docId rest (acc ++ [t]) ti.page_no k

/- One DocumentChunk per table, appended after all text chunks. -/
def tableChunksLoop (docId : List Char) (i : Nat) : List Table → List DocumentChunk
  | [] => []
  | tb :: rest =>
    ⟨docId ++ ("_table_".toList) ++ (Nat.repr i).toList,
      (match tb.export_to_html with | some h => h | none => tb.str_repr),
      ⟨tb.page_no, none, some i, "table"⟩, tb.page_no, "table"⟩
      :: tableChunksLoop docId (i + 1) rest

/- DoclingProcessor._create_chunks. -/
def docling_create_chunks (doc : Document) (document_id : List Char) : List DocumentChunk :=
  (match doc.texts with
   | none => []
   | some ts => createChunksLoop document_id ts [] none 0)
  ++ (match doc.tables with
      | none => []
      | some tbls => tableChunksLoop document_id 0 tbls)

/- ### docling_processor.py : DoclingProcessor._get_header_level -/

def docling_get_header_level (label : List Char) : Nat :=
  let ll := lowerL label
  if isSubstr ("h1".toList) ll ∨ isSubstr ("title".toList) ll then 1
  else if isSubstr ("h2".toList) ll then 2
  else if isSubstr ("h3".toList) ll then 3
  else if isSubstr ("h4".toList) ll then 4
  else 1

/- ### app.py : the /extract handler -/

structure Metadata where
  page_count : Nat
  has_tables : Bool
  has_images : Bool
  processing_method : String
deriving DecidableEq

/- The "content" block of a successful extraction.  The source's JSON key
   for the second field is "structure" (a Lean keyword). -/
structure ContentBlock where
  markdown : List Char
  docStructure : DocStructure
  text_chunks : List Chunk
  metadata : Metadata
deriving DecidableEq

structure ExtractionResult where
  filename : List Char
  success : Bool
  content : Option ContentBlock
  error : Option (List Char)
deriving DecidableEq

inductive RespBody where
  | authFailure : List Char → RespBody
  | validationFailure : List Char → RespBody
  | extraction : ExtractionResult → RespBody
  | callbackAck : List Char → RespBody
deriving DecidableEq

structure HttpResponse where
  status : Nat
  body : RespBody
deriving DecidableEq

def mkContent (doc : Document) : ContentBlock :=
  ⟨doc.export_to_markdown,
   extract_document_structure doc,
   create_llm_chunks doc 2000,
   ⟨get_page_count doc, has_tables doc, has_images doc, "docling"⟩⟩

/- The /extract handler.  External effects are parameters: `authOk` is the
   bearer-token equality check, `conv` is the outcome of the converter plus
   transform (its exception message on failure), `callbackOk` is the outcome
   of the callback POST.  The temp-file bookkeeping has no observable effect
   on the response and is omitted. -/
def extract_document (authOk : Bool) (filename : List Char)
    (conv : Except (List Char) Document)
    (callback_url resource_id : Option (List Char)) (callbackOk : Bool) : HttpResponse :=
  if !authOk then ⟨401, .authFailure ("Invalid API key".toList)⟩
  else if !(hasSuffixL (".pdf".toList) (lowerL filename)) then
    ⟨400, .validationFailure ("Only PDF files are supported".toList)⟩
  else
    match conv with
    | .error e => ⟨200, .extraction ⟨filename, false, none, some e⟩⟩
    | .ok doc =>
      let res : ExtractionResult := ⟨filename, true, some (mkContent doc), none⟩
      match callback_url, resource_id with
      | some _, some rid =>
        if callbackOk then ⟨200, .callbackAck rid⟩
        else ⟨200, .extraction res⟩
      | _, _ => ⟨200, .extraction res⟩

/- ### quick sanity checks of the embedding -/

example : splitNN ("a\n\nb".toList) = [['a'], ['b']] := by decide
example : splitNN ("a\n\n\nb".toList) = [['a'], ['\n', 'b']] := by decide
example : splitNN ("".toList) = [[]] := by decide
example : strip ("  a b \n".toList) = "a b".toList := by decide
example : isSubstr ("h2".toList) ("heading-h2".toList) = true := by decide
example : get_heading_level ("Title-h3".toList) = 1 := by decide
example : get_heading_level ("paragraph".toList) = 2 := by decide
example :
    create_llm_chunks ⟨none, none, none, none, "ab\n\ncd".toList⟩ 2000
      = [⟨"ab\n\ncd".toList, 4, "paragraph_group"⟩] := by decide
example :
    docling_create_chunks
      ⟨some [⟨"a".toList, none, some 1⟩, ⟨"b".toList, none, some 1⟩,
             ⟨"c".toList, none, some 2⟩], none, none, none, []⟩ ("d".toList)
      = [⟨"d_chunk_0".toList, "a b".toList, ⟨some 1, some 0, none, "text"⟩, some 1, "text"⟩,
         ⟨"d_chunk_1".toList, "c".toList, ⟨some 2, some 1, none, "text"⟩, some 2, "text"⟩] := by
  decide
example : docling_get_header_level ("foo".toList) = 1 := by decide
example :
    extract_document true ("x.pdf".toList) (Except.error ("boom".toList)) none none false
      = ⟨200, .extraction ⟨"x.pdf".toList, false, none, some ("boom".toList)⟩⟩ := by decide

/- ### Abstraction of the paragraph chunker: the groups of trimmed
   paragraphs that each produced chunk joins together. -/

def chunkGroups (maxSize : Nat) : List (List Char) → List (List Char) → List (List (List Char))
  | [], acc => if acc.isEmpty then [] else [acc]
  | q :: rest, acc =>
    let p := strip q
    if p.isEmpty then chunkGroups maxSize rest acc
    else if sumLen acc + p.length > maxSize ∧ acc ≠ [] then
      acc :: chunkGroups maxSize rest [p]
    else chunkGroups maxSize rest (acc ++ [p])

def mkParagraphChunk (g : List (List Char)) : Chunk :=
  ⟨joinNN g, sumLen g, "paragraph_group"⟩

/- Concatenation of a list of groups. -/
def catGroups : List (List (List Char)) → List (List Char)
  | [] => []
  | g :: gs => g ++ catGroups gs

theorem sumLen_append (a b : List (List Char)) :
    sumLen (a ++ b) = sumLen a + sumLen b := by
  induction a with
  | nil => simp [sumLen]
  | cons p rest ih => simp [sumLen, ih]; omega

theorem sumLen_singleton (p : List Char) : sumLen [p] = p.length := by
  simp [sumLen]

/- Branch equations for the two loops, stated once and reused. -/

theorem chunkGroups_nil (m : Nat) (acc : List (List Char)) :
    chunkGroups m [] acc = if acc.isEmpty then [] else [acc] := rfl

theorem chunkGroups_cons_skip (m : Nat) (q : List Char) (rest acc : List (List Char))
    (hp : (strip q).isEmpty = true) :
    chunkGroups m (q :: rest) acc = chunkGroups m rest acc := by
  simp [chunkGroups, hp]

theorem chunkGroups_cons_flush (m : Nat) (q : List Char) (rest acc : List (List Char))
    (hp : ¬ (strip q).isEmpty = true)
    (hf : sumLen acc + (strip q).length > m ∧ acc ≠ []) :
    chunkGroups m (q :: rest) acc = acc :: chunkGroups m rest [strip q] := by
  simp [chunkGroups, hp, hf]

theorem chunkGroups_cons_add (m : Nat) (q : List Char) (rest acc : List (List Char))
    (hp : ¬ (strip q).isEmpty = true)
    (hf : ¬ (sumLen acc + (strip q).length > m ∧ acc ≠ [])) :
    chunkGroups m (q :: rest) acc = chunkGroups m rest (acc ++ [strip q]) := by
  simp [chunkGroups, hp, hf]

theorem chunkLoop_nil (m : Nat) (acc : List (List Char)) (sz : Nat) :
    chunkLoop m [] acc sz
      = if acc.isEmpty then [] else [⟨joinNN acc, sz, "paragraph_group"⟩] := rfl

theorem chunkLoop_cons_skip (m : Nat) (q : List Char) (rest acc : List (List Char)) (sz : Nat)
    (hp : (strip q).isEmpty = true) :
    chunkLoop m (q :: rest) acc sz = chunkLoop m rest acc sz := by
  simp [chunkLoop, hp]

theorem chunkLoop_cons_flush (m : Nat) (q : List Char) (rest acc : List (List Char)) (sz : Nat)
    (hp : ¬ (strip q).isEmpty = true)
    (hf : sz + (strip q).length > m ∧ acc ≠ []) :
    chunkLoop m (q :: rest) acc sz
      = ⟨joinNN acc, sz, "paragraph_group"⟩
          :: chunkLoop m rest [strip q] (strip q).length := by
  simp [chunkLoop, hp, hf]

theorem chunkLoop_cons_add (m : Nat) (q : List Char) (rest acc : List (List Char)) (sz : Nat)
    (hp : ¬ (strip q).isEmpty = true)
    (hf : ¬ (sz + (strip q).length > m ∧ acc ≠ [])) :
    chunkLoop m (q :: rest) acc sz
      = chunkLoop m rest (acc ++ [strip q]) (sz + (strip q).length) := by
  simp [chunkLoop, hp, hf]

/- The chunk loop is the group loop followed by chunk formation. -/
theorem chunkLoop_eq_groups (m : Nat) (ps : List (List Char)) :
    ∀ acc, chunkLoop m ps acc (sumLen acc)
      = (chunkGroups m ps acc).map mkParagraphChunk := by
  induction ps with
  | nil =>
    intro acc
    by_cases h : acc.isEmpty <;>
      simp [chunkLoop_nil, chunkGroups_nil, h, mkParagraphChunk]
  | cons q rest ih =>
    intro acc
    by_cases hp : (strip q).isEmpty = true
    · rw [chunkLoop_cons_skip m q rest acc _ hp, chunkGroups_cons_skip m q rest acc hp]
      exact ih acc
    · by_cases hf : sumLen acc + (strip q).length > m ∧ acc ≠ []
      · rw [chunkLoop_cons_flush m q rest acc _ hp hf, chunkGroups_cons_flush m q rest acc hp hf]
        have := ih [strip q]
        rw [sumLen_singleton] at this
        simp [this, mkParagraphChunk]
      · rw [chunkLoop_cons_add m q rest acc _ hp hf, chunkGroups_cons_add m q rest acc hp hf]
        have := ih (acc ++ [strip q])
        rw [sumLen_append, sumLen_singleton] at this
        exact this

theorem create_llm_chunks_eq_groups (doc : Document) (m : Nat) :
    create_llm_chunks doc m
      = (chunkGroups m (splitNN doc.export_to_markdown) []).map mkParagraphChunk := by
  have := chunkLoop_eq_groups m (splitNN doc.export_to_markdown) []
  simpa [create_llm_chunks, sumLen] using this

/- The groups concatenate back to the trimmed non-empty paragraphs. -/
theorem chunkGroups_cat (m : Nat) (ps : List (List Char)) :
    ∀ acc, catGroups (chunkGroups m ps acc)
      = acc ++ (ps.map strip).filter (fun p => !p.isEmpty) := by
  induction ps with
  | nil =>
    intro acc
    by_cases h : acc.isEmpty
    · simp [chunkGroups, h, catGroups, List.isEmpty_iff.mp h]
    · simp [chunkGroups, h, catGroups]
  | cons q rest ih =>
    intro acc
    by_cases hp : (strip q).isEmpty = true
    · rw [chunkGroups_cons_skip m q rest acc hp, ih acc]
      simp [List.isEmpty_iff.mp hp, List.filter_cons]
    · by_cases hf : sumLen acc + (strip q).length > m ∧ acc ≠ []
      · rw [chunkGroups_cons_flush m q rest acc hp hf]
        simp only [catGroups, ih [strip q]]
        simp [List.filter_cons, hp]
      · rw [chunkGroups_cons_add m q rest acc hp hf, ih (acc ++ [strip q])]
        simp [List.filter_cons, hp]

/- Every produced group is non-empty. -/
theorem chunkGroups_ne_nil (m : Nat) (ps : List (List Char)) :
    ∀ acc g, g ∈ chunkGroups m ps acc → g ≠ [] := by
  induction ps with
  | nil =>
    intro acc g hg
    rw [chunkGroups_nil] at hg
    by_cases h : acc.isEmpty <;> simp [h] at hg
    subst hg
    intro hnil
    exact h (by simp [hnil])
  | cons q rest ih =>
    intro acc g hg
    by_cases hp : (strip q).isEmpty = true
    · exact ih acc g (by rwa [chunkGroups_cons_skip m q rest acc hp] at hg)
    · by_cases hf : sumLen acc + (strip q).length > m ∧ acc ≠ []
      · rw [chunkGroups_cons_flush m q rest acc hp hf] at hg
        rcases List.mem_cons.mp hg with rfl | hg
        · exact hf.2
        · exact ih [strip q] g hg
      · exact ih (acc ++ [strip q]) g (by rwa [chunkGroups_cons_add m q rest acc hp hf] at hg)

/- ### Separator theory: splitNN / joinNN round trips -/

theorem consHead_ne_nil (c : Char) (gs : List (List Char)) : consHead c gs ≠ [] := by
  cases gs <;> simp [consHead]

theorem splitNN_cons2 (a b : Char) (rest : List Char) :
    splitNN (a :: b :: rest)
      = if a = '\n' ∧ b = '\n' then [] :: splitNN rest
        else consHead a (splitNN (b :: rest)) := rfl

theorem splitNN_ne_nil : ∀ l : List Char, splitNN l ≠ []
  | [] => by simp [splitNN]
  | [_] => by simp [splitNN]
  | a :: b :: rest => by
    rw [splitNN_cons2]
    by_cases h : a = '\n' ∧ b = '\n'
    · simp [h]
    · rw [if_neg h]; exact consHead_ne_nil a _

theorem noNN_cons {c : Char} {l : List Char} (h : noNN (c :: l) = true) : noNN l = true := by
  cases l with
  | nil => rfl
  | cons b rest =>
    have h' := h
    rw [show noNN (c :: b :: rest)
          = (!(decide (c = '\n') && decide (b = '\n')) && noNN (b :: rest)) from rfl,
        Bool.and_eq_true] at h'
    exact h'.2

theorem noNN_cons_cons {a b : Char} {l : List Char} (h : noNN (a :: b :: l) = true) :
    ¬ (a = '\n' ∧ b = '\n') := by
  rw [show noNN (a :: b :: l)
        = (!(decide (a = '\n') && decide (b = '\n')) && noNN (b :: l)) from rfl,
      Bool.and_eq_true] at h
  intro hab
  simp [hab.1, hab.2] at h

theorem noNN_mk {a b : Char} {l : List Char} (hab : ¬ (a = '\n' ∧ b = '\n'))
    (h : noNN (b :: l) = true) : noNN (a :: b :: l) = true := by
  rw [show noNN (a :: b :: l)
        = (!(decide (a = '\n') && decide (b = '\n')) && noNN (b :: l)) from rfl,
      Bool.and_eq_true]
  refine ⟨?_, h⟩
  by_cases ha : a = '\n' <;> by_cases hb : b = '\n' <;> simp [ha, hb] at hab ⊢

theorem noNN_append_right : ∀ a b : List Char, noNN (a ++ b) = true → noNN b = true := by
  intro a
  induction a with
  | nil => intro b h; exact h
  | cons c t ih => intro b h; exact ih b (noNN_cons h)

theorem noNN_append_left : ∀ a b : List Char, noNN (a ++ b) = true → noNN a = true := by
  intro a
  induction a with
  | nil => intro b _; rfl
  | cons x a' ih =>
    intro b h
    cases a' with
    | nil => rfl
    | cons y a'' =>
      have h1 : ¬ (x = '\n' ∧ y = '\n') := noNN_cons_cons h
      have h2 : noNN (y :: a'') = true := ih b (noNN_cons h)
      exact noNN_mk h1 h2

theorem exists_append_dropWhile (f : Char → Bool) :
    ∀ l : List Char, ∃ s, s ++ l.dropWhile f = l := by
  intro l
  induction l with
  | nil => exact ⟨[], rfl⟩
  | cons c t ih =>
    by_cases h : f c
    · obtain ⟨s, hs⟩ := ih
      exact ⟨c :: s, by simp [List.dropWhile_cons, h, hs]⟩
    · exact ⟨[], by simp [List.dropWhile_cons, h]⟩

theorem head_dropWhile_not (f : Char → Bool) :
    ∀ l : List Char, ∀ c, (l.dropWhile f).head? = some c → f c = false := by
  intro l
  induction l with
  | nil => intro c h; simp at h
  | cons a t ih =>
    intro c h
    by_cases ha : f a
    · rw [List.dropWhile_cons, if_pos (by simpa using ha)] at h
      exact ih c h
    · rw [List.dropWhile_cons, if_neg (by simpa using ha)] at h
      simp only [List.head?_cons, Option.some.injEq] at h
      subst h
      simpa using ha

/- `strip` decomposes its input as junk ++ strip ++ junk. -/
theorem strip_decomp (l : List Char) :
    ∃ s t, s ++ (strip l ++ t) = l := by
  obtain ⟨s, hs⟩ := exists_append_dropWhile isWS l
  obtain ⟨s2, hs2⟩ := exists_append_dropWhile isWS (l.dropWhile isWS).reverse
  refine ⟨s, s2.reverse, ?_⟩
  have : l.dropWhile isWS = strip l ++ s2.reverse := by
    have h := congrArg List.reverse hs2
    simpa [List.reverse_append, strip] using h.symm
  rw [← this, hs]

theorem noNN_strip (l : List Char) (h : noNN l = true) : noNN (strip l) = true := by
  obtain ⟨s, t, hst⟩ := strip_decomp l
  have h1 : noNN (strip l ++ t) = true := noNN_append_right s _ (by rwa [hst])
  exact noNN_append_left _ _ h1

theorem strip_head_not_ws (l : List Char) (c : Char)
    (h : (strip l).head? = some c) : isWS c = false := by
  obtain ⟨s2, hs2⟩ := exists_append_dropWhile isWS (l.dropWhile isWS).reverse
  have hd : l.dropWhile isWS = strip l ++ s2.reverse := by
    have h' := congrArg List.reverse hs2
    simpa [List.reverse_append, strip] using h'.symm
  cases hl : strip l with
  | nil => rw [hl] at h; simp at h
  | cons c0 tl =>
    rw [hl] at h
    simp only [List.head?_cons, Option.some.injEq] at h
    rw [← h]
    apply head_dropWhile_not isWS l c0
    rw [hd, hl]
    simp

theorem strip_getLast_not_ws (l : List Char) (c : Char)
    (h : (strip l).getLast? = some c) : isWS c = false := by
  have hrev : strip l = ((l.dropWhile isWS).reverse.dropWhile isWS).reverse := rfl
  cases hx : (l.dropWhile isWS).reverse.dropWhile isWS with
  | nil => rw [hrev, hx] at h; simp at h
  | cons c0 tl =>
    rw [hrev, hx] at h
    have : (c0 :: tl).reverse = tl.reverse ++ [c0] := by simp
    rw [this, List.getLast?_concat] at h
    have hc : c = c0 := by simpa using h.symm
    rw [hc]
    apply head_dropWhile_not isWS (l.dropWhile isWS).reverse c0
    rw [hx]
    simp

/- A string without the separator is a single split group. -/
theorem splitNN_noNN : ∀ g : List Char, noNN g = true → splitNN g = [g]
  | [], _ => rfl
  | [_], _ => rfl
  | a :: b :: rest, h => by
    rw [splitNN_cons2, if_neg (noNN_cons_cons h),
      splitNN_noNN (b :: rest) (noNN_cons h)]
    rfl

/- Splitting a separator placed after a separator-free block that does not
   end in a newline peels off exactly that block. -/
theorem splitNN_append_sep :
    ∀ g rest : List Char, noNN g = true → g.getLast? ≠ some '\n' →
      splitNN (g ++ '\n' :: '\n' :: rest) = g :: splitNN rest
  | [], rest, _, _ => by simp [splitNN_cons2]
  | [a], rest, _, hl => by
    have ha : ¬ (a = '\n' ∧ '\n' = '\n') := by
      intro hc
      exact hl (by simp [hc.1])
    show splitNN (a :: '\n' :: '\n' :: rest) = [a] :: splitNN rest
    rw [splitNN_cons2, if_neg ha]
    have : splitNN ('\n' :: '\n' :: rest) = [] :: splitNN rest := by
      simp [splitNN_cons2]
    rw [this]
    rfl
  | a :: b :: g'', rest, h, hl => by
    have h1 : ¬ (a = '\n' ∧ b = '\n') := noNN_cons_cons h
    have h2 : noNN (b :: g'') = true := noNN_cons h
    have hl2 : (b :: g'').getLast? ≠ some '\n' := by
      intro hc
      exact hl (by rw [List.getLast?_cons_cons]; exact hc)
    show splitNN (a :: b :: (g'' ++ '\n' :: '\n' :: rest))
      = (a :: b :: g'') :: splitNN rest
    rw [splitNN_cons2, if_neg h1]
    have hrec := splitNN_append_sep (b :: g'') rest h2 hl2
    rw [show (b :: g'') ++ '\n' :: '\n' :: rest
          = b :: (g'' ++ '\n' :: '\n' :: rest) from rfl] at hrec
    rw [hrec]
    rfl

/- Round trip: splitting the double-newline join of separator-free,
   newline-trimmed pieces recovers the pieces. -/
theorem splitNN_joinNN :
    ∀ gs : List (List Char), gs ≠ [] →
      (∀ g ∈ gs, noNN g = true ∧ g.getLast? ≠ some '\n') →
      splitNN (joinNN gs) = gs
  | [], hne, _ => absurd rfl hne
  | [g], _, hall => by
    rw [show joinNN [g] = g from rfl]
    exact splitNN_noNN g (hall g (by simp)).1
  | g :: g2 :: gs', _, hall => by
    rw [show joinNN (g :: g2 :: gs') = g ++ '\n' :: '\n' :: joinNN (g2 :: gs') from rfl]
    rw [splitNN_append_sep g _ (hall g (by simp)).1 (hall g (by simp)).2]
    rw [splitNN_joinNN (g2 :: gs') (by simp) (fun x hx => hall x (by simp [hx]))]

/- The groups produced by splitNN are separator-free, and a non-empty first
   group starts with the first character of the input. -/
theorem splitNN_elems : ∀ l : List Char,
    (∀ g ∈ splitNN l, noNN g = true) ∧
    (∀ g gs c, splitNN l = g :: gs → g.head? = some c → l.head? = some c)
  | [] => by
    refine ⟨?_, ?_⟩
    · intro g hg
      simp only [splitNN, List.mem_singleton] at hg
      simp [hg, noNN]
    · intro g gs c heq hh
      simp only [splitNN] at heq
      injection heq with h1 _
      rw [← h1] at hh
      simp at hh
  | [c0] => by
    refine ⟨?_, ?_⟩
    · intro g hg
      simp only [splitNN, List.mem_singleton] at hg
      simp [hg, noNN]
    · intro g gs c heq hh
      simp only [splitNN] at heq
      injection heq with h1 _
      rw [← h1] at hh
      simpa using hh
  | a :: b :: rest => by
    by_cases hab : a = '\n' ∧ b = '\n'
    · have IH := splitNN_elems rest
      refine ⟨?_, ?_⟩
      · intro g hg
        rw [splitNN_cons2, if_pos hab] at hg
        rcases List.mem_cons.mp hg with rfl | hg'
        · rfl
        · exact IH.1 g hg'
      · intro g gs c heq hh
        rw [splitNN_cons2, if_pos hab] at heq
        injection heq with h1 _
        rw [← h1] at hh
        simp at hh
    · have IH := splitNN_elems (b :: rest)
      cases hs : splitNN (b :: rest) with
      | nil => exact absurd hs (splitNN_ne_nil _)
      | cons g' gs' =>
        have hsp : splitNN (a :: b :: rest) = (a :: g') :: gs' := by
          rw [splitNN_cons2, if_neg hab, hs]
          rfl
        refine ⟨?_, ?_⟩
        · intro g hg
          rw [hsp] at hg
          rcases List.mem_cons.mp hg with rfl | hg'
          · cases hg'' : g' with
            | nil => rfl
            | cons d g2 =>
              have hno : noNN (d :: g2) = true := by
                have := IH.1 g' (by rw [hs]; simp)
                rwa [hg''] at this
              have hd : (b :: rest).head? = some d := by
                apply IH.2 g' gs' d hs
                rw [hg'']
                rfl
              have hbd : b = d := by simpa using hd
              apply noNN_mk ?_ hno
              intro hc
              exact hab ⟨hc.1, by rw [hbd]; exact hc.2⟩
          · exact IH.1 g (by rw [hs]; simp [hg'])
        · intro g gs c heq hh
          rw [hsp] at heq
          injection heq with h1 _
          rw [← h1] at hh
          simp only [List.head?_cons, Option.some.injEq] at hh
          simp [hh]

/- Every trimmed non-empty paragraph is non-empty, separator-free, and does
   not end in a newline. -/
theorem trimmedParagraphs_props (md : List Char) :
    ∀ p ∈ trimmedParagraphs md,
      p ≠ [] ∧ noNN p = true ∧ p.getLast? ≠ some '\n' := by
  intro p hp
  rw [trimmedParagraphs, List.mem_filter] at hp
  obtain ⟨hpm, hpe⟩ := hp
  obtain ⟨q, hq, hqs⟩ := List.mem_map.mp hpm
  have hpne : p ≠ [] := by
    intro hnil
    rw [hnil] at hpe
    simp at hpe
  refine ⟨hpne, ?_, ?_⟩
  · rw [← hqs]
    exact noNN_strip q ((splitNN_elems md).1 q hq)
  · intro hc
    have := strip_getLast_not_ws q '\n' (by rw [hqs]; exact hc)
    simp [isWS] at this

theorem joinNN_cons_ne (p : List Char) (gs : List (List Char)) (h : gs ≠ []) :
    joinNN (p :: gs) = p ++ '\n' :: '\n' :: joinNN gs := by
  cases gs with
  | nil => exact absurd rfl h
  | cons q gs' => rfl

theorem joinNN_append (a b : List (List Char)) (ha : a ≠ []) (hb : b ≠ []) :
    joinNN (a ++ b) = joinNN a ++ '\n' :: '\n' :: joinNN b := by
  induction a with
  | nil => exact absurd rfl ha
  | cons p a' ih =>
    cases a' with
    | nil =>
      rw [List.cons_append, List.nil_append, joinNN_cons_ne p b hb]
      rfl
    | cons p2 a'' =>
      rw [List.cons_append, joinNN_cons_ne p _ (by simp),
        joinNN_cons_ne p (p2 :: a'') (by simp), ih (by simp)]
      simp

theorem catGroups_cons (g : List (List Char)) (gs : List (List (List Char))) :
    catGroups (g :: gs) = g ++ catGroups gs := rfl

theorem catGroups_ne_nil (g : List (List Char)) (gs : List (List (List Char)))
    (hg : g ≠ []) : catGroups (g :: gs) ≠ [] := by
  rw [catGroups_cons]
  simp [hg]

theorem mem_catGroups :
    ∀ (gss : List (List (List Char))) (g : List (List Char)) (x : List Char),
      g ∈ gss → x ∈ g → x ∈ catGroups gss := by
  intro gss
  induction gss with
  | nil => intro g x hg _; simp at hg
  | cons g0 gss' ih =>
    intro g x hg hx
    rw [catGroups_cons, List.mem_append]
    rcases List.mem_cons.mp hg with rfl | hg'
    · exact Or.inl hx
    · exact Or.inr (ih g x hg' hx)

/- Joining the per-group joins equals joining the concatenation of the
   groups, provided no group is empty. -/
theorem joinNN_map_catGroups :
    ∀ gss : List (List (List Char)), (∀ g ∈ gss, g ≠ []) →
      joinNN (gss.map joinNN) = joinNN (catGroups gss)
  | [], _ => rfl
  | [g], _ => by
    rw [List.map_cons, List.map_nil, catGroups_cons]
    show joinNN g = joinNN (g ++ catGroups [])
    rw [show catGroups ([] : List (List (List Char))) = [] from rfl, List.append_nil]
  | g :: g2 :: gss', hall => by
    rw [List.map_cons, joinNN_cons_ne (joinNN g) _ (by simp),
      joinNN_map_catGroups (g2 :: gss') (fun x hx => hall x (by simp [hx]))]
    conv_rhs => rw [catGroups_cons]
    rw [joinNN_append g (catGroups (g2 :: gss'))
      (hall g (by simp)) (catGroups_ne_nil g2 gss' (hall g2 (by simp)))]

/- Size bound: when every trimmed paragraph fits in `m`, every group's
   total size is at most `m`. -/
theorem chunkGroups_size_le (m : Nat) (ps : List (List Char)) :
    ∀ acc, (∀ q ∈ ps, (strip q).length ≤ m) → sumLen acc ≤ m →
      ∀ g ∈ chunkGroups m ps acc, sumLen g ≤ m := by
  induction ps with
  | nil =>
    intro acc _ hacc g hg
    rw [chunkGroups_nil] at hg
    by_cases h : acc.isEmpty <;> simp [h] at hg
    subst hg; exact hacc
  | cons q rest ih =>
    intro acc hps hacc g hg
    have hq : (strip q).length ≤ m := hps q (by simp)
    have hrest : ∀ r ∈ rest, (strip r).length ≤ m := fun r hr => hps r (by simp [hr])
    by_cases hp : (strip q).isEmpty = true
    · exact ih acc hrest hacc g (by rwa [chunkGroups_cons_skip m q rest acc hp] at hg)
    · by_cases hf : sumLen acc + (strip q).length > m ∧ acc ≠ []
      · rw [chunkGroups_cons_flush m q rest acc hp hf] at hg
        rcases List.mem_cons.mp hg with rfl | hg
        · exact hacc
        · exact ih [strip q] hrest (by simpa [sumLen_singleton] using hq) g hg
      · have hle : sumLen (acc ++ [strip q]) ≤ m := by
          rw [sumLen_append, sumLen_singleton]
          by_cases hnil : acc = []
          · subst hnil; simpa [sumLen] using hq
          · have : ¬ sumLen acc + (strip q).length > m := fun hgt => hf ⟨hgt, hnil⟩
            omega
        exact ih (acc ++ [strip q]) hrest hle g
          (by rwa [chunkGroups_cons_add m q rest acc hp hf] at hg)

/- When the trimmed paragraphs all fit in one chunk, the loop never
   flushes and produces at most one group. -/
theorem chunkGroups_single (m : Nat) (ps : List (List Char)) :
    ∀ acc, sumLen acc + sumLen ((ps.map strip).filter (fun p => !p.isEmpty)) ≤ m →
      chunkGroups m ps acc
        = if (acc ++ (ps.map strip).filter (fun p => !p.isEmpty)).isEmpty then []
          else [acc ++ (ps.map strip).filter (fun p => !p.isEmpty)] := by
  induction ps with
  | nil =>
    intro acc _
    simp [chunkGroups_nil]
  | cons q rest ih =>
    intro acc hsum
    by_cases hp : (strip q).isEmpty = true
    · rw [chunkGroups_cons_skip m q rest acc hp, ih acc ?_]
      · simp [List.filter_cons, hp]
      · simpa [List.filter_cons, hp] using hsum
    · have hfilter : ((q :: rest).map strip).filter (fun p => !p.isEmpty)
          = strip q :: (rest.map strip).filter (fun p => !p.isEmpty) := by
        simp [List.filter_cons, hp]
      rw [hfilter] at hsum
      simp only [sumLen] at hsum
      have hflush : ¬ (sumLen acc + (strip q).length > m ∧ acc ≠ []) := by
        intro hc
        omega
      rw [chunkGroups_cons_add m q rest acc hp hflush, ih (acc ++ [strip q]) ?_]
      · rw [hfilter]
        simp
      · rw [sumLen_append, sumLen_singleton]
        omega

/- Per-paragraph length bound transferred from trimmed paragraphs to the
   raw split groups. -/
theorem trimmed_length_le (md : List Char) (m : Nat)
    (hlen : ∀ p ∈ trimmedParagraphs md, p.length ≤ m) :
    ∀ q ∈ splitNN md, (strip q).length ≤ m := by
  intro q hq
  by_cases hqe : (strip q).isEmpty = true
  · simp [List.isEmpty_iff.mp hqe]
  · apply hlen
    rw [trimmedParagraphs, List.mem_filter]
    exact ⟨List.mem_map.mpr ⟨q, hq, rfl⟩, by simpa using hqe⟩

/- Concrete documents used by witnesses and counterexamples. -/
def docSmall : Document := ⟨none, none, none, none, "ab\n\ncd".toList⟩
def docBig : Document := ⟨none, none, none, none, List.replicate 2001 'a'⟩
def docC1 : Document :=
  ⟨none, none, none, none, List.replicate 1500 'a' ++ '\n' :: '\n' :: List.replicate 1500 'a'⟩

/- Evaluation lemmas for the large concrete inputs (too deep for kernel
   evaluation, established through the structural lemmas instead). -/

theorem noNN_of_no_nl : ∀ l : List Char, (∀ c ∈ l, c ≠ '\n') → noNN l = true
  | [], _ => rfl
  | [_], _ => rfl
  | a :: b :: rest, h => by
    refine noNN_mk (fun hc => h a (by simp) hc.1) ?_
    exact noNN_of_no_nl (b :: rest) (fun c hc => h c (by simp [List.mem_cons.mp hc]))

theorem getLast?_mem_chars : ∀ (l : List Char) (c : Char), l.getLast? = some c → c ∈ l
  | [], c, h => by simp at h
  | [a], c, h => by
    simp only [List.getLast?_singleton, Option.some.injEq] at h
    simp [h]
  | a :: b :: t, c, h => by
    rw [List.getLast?_cons_cons] at h
    exact List.mem_cons_of_mem a (getLast?_mem_chars (b :: t) c h)

theorem dropWhile_eq_self_of (f : Char → Bool) (l : List Char)
    (h : ∀ c ∈ l, f c = false) : l.dropWhile f = l := by
  cases l with
  | nil => rfl
  | cons a t =>
    rw [List.dropWhile_cons, if_neg]
    simp [h a (by simp)]

theorem strip_of_no_ws (l : List Char) (h : ∀ c ∈ l, isWS c = false) : strip l = l := by
  rw [strip, dropWhile_eq_self_of isWS l h,
    dropWhile_eq_self_of isWS l.reverse (fun c hc => h c (List.mem_reverse.mp hc)),
    List.reverse_reverse]

theorem rep_a_ne_nl (n : Nat) : ∀ c ∈ List.replicate n 'a', c ≠ '\n' := by
  intro c hc
  rw [List.eq_of_mem_replicate hc]
  decide

theorem rep_a_no_ws (n : Nat) : ∀ c ∈ List.replicate n 'a', isWS c = false := by
  intro c hc
  rw [List.eq_of_mem_replicate hc]
  decide

theorem rep_a_ne_nil (n : Nat) (hn : n ≠ 0) : List.replicate n 'a' ≠ [] := by
  intro h
  have h' := congrArg List.length h
  simp at h'
  exact hn h'

theorem isEmpty_false_of_ne_nil {l : List Char} (h : l ≠ []) : l.isEmpty = false := by
  cases l with
  | nil => exact absurd rfl h
  | cons a t => rfl

theorem rep_a_strip_not_isEmpty (n : Nat) (hn : n ≠ 0) :
    ¬ (strip (List.replicate n 'a')).isEmpty = true := by
  rw [strip_of_no_ws _ (rep_a_no_ws n)]
  intro hc
  exact rep_a_ne_nil n hn (List.isEmpty_iff.mp hc)

theorem trimmedParagraphs_docBig :
    trimmedParagraphs docBig.export_to_markdown = [List.replicate 2001 'a'] := by
  show trimmedParagraphs (List.replicate 2001 'a') = _
  rw [trimmedParagraphs, splitNN_noNN _ (noNN_of_no_nl _ (rep_a_ne_nl 2001)),
    List.map_singleton, strip_of_no_ws _ (rep_a_no_ws 2001)]
  rw [List.filter_cons,
    if_pos (by simp [isEmpty_false_of_ne_nil (rep_a_ne_nil 2001 (by decide))])]
  rfl

theorem chunks_docBig :
    create_llm_chunks docBig 2000
      = [⟨List.replicate 2001 'a', 2001, "paragraph_group"⟩] := by
  rw [create_llm_chunks_eq_groups]
  show (chunkGroups 2000 (splitNN (List.replicate 2001 'a')) []).map mkParagraphChunk = _
  rw [splitNN_noNN _ (noNN_of_no_nl _ (rep_a_ne_nl 2001))]
  rw [chunkGroups_cons_add 2000 _ [] []
    (rep_a_strip_not_isEmpty 2001 (by decide)) (by simp)]
  rw [List.nil_append, strip_of_no_ws _ (rep_a_no_ws 2001), chunkGroups_nil]
  rw [if_neg (by simp)]
  simp [mkParagraphChunk, sumLen, joinNN]

/-- Claim C1 counterexample: a markdown input that is a single paragraph of
2001 characters crosses the 2000-character cumulative threshold, yet
create_llm_chunks with max_chunk_size 2000 produces exactly one chunk, not
two or more. -/
theorem claim_C1_counterexample :
    sumLen (trimmedParagraphs docBig.export_to_markdown) > 2000
    ∧ ¬ 2 ≤ (create_llm_chunks docBig 2000).length := by
  constructor
  · rw [trimmedParagraphs_docBig]
    simp [sumLen]
  · rw [chunks_docBig]
    simp

/-- Claim C1 (amended): for every document, (a) unconditionally, each chunk
produced by create_llm_chunks with max_chunk_size 2000 has its recorded size
equal to the sum of the lengths of its constituent trimmed paragraphs
(separators not counted); (b) whenever the markdown has at least one trimmed
non-empty paragraph, the chunks' texts joined and split back on the
double-newline separator give the original ordered sequence of trimmed
non-empty paragraphs, with nothing dropped or reordered; and (c) at least
two chunks are produced when the paragraphs' cumulative size exceeds 2000
AND — the restriction the counterexample forces — every single trimmed
paragraph is at most 2000 characters long. -/
theorem claim_C1 (doc : Document) :
    (∀ ch ∈ create_llm_chunks doc 2000, ch.size = sumLen (splitNN ch.text))
    ∧ (trimmedParagraphs doc.export_to_markdown ≠ [] →
        splitNN (joinNN ((create_llm_chunks doc 2000).map Chunk.text))
          = trimmedParagraphs doc.export_to_markdown)
    ∧ ((∀ p ∈ trimmedParagraphs doc.export_to_markdown, p.length ≤ 2000) →
        sumLen (trimmedParagraphs doc.export_to_markdown) > 2000 →
        2 ≤ (create_llm_chunks doc 2000).length) := by
  have hcat : catGroups (chunkGroups 2000 (splitNN doc.export_to_markdown) [])
      = trimmedParagraphs doc.export_to_markdown := by
    have := chunkGroups_cat 2000 (splitNN doc.export_to_markdown) []
    simpa [trimmedParagraphs] using this
  have hne : ∀ g ∈ chunkGroups 2000 (splitNN doc.export_to_markdown) [], g ≠ [] :=
    chunkGroups_ne_nil 2000 _ []
  have hprops : ∀ x ∈ trimmedParagraphs doc.export_to_markdown,
      noNN x = true ∧ x.getLast? ≠ some '\n' := by
    intro x hx
    exact ⟨(trimmedParagraphs_props _ x hx).2.1, (trimmedParagraphs_props _ x hx).2.2⟩
  have hsplit_group : ∀ g ∈ chunkGroups 2000 (splitNN doc.export_to_markdown) [],
      splitNN (joinNN g) = g := by
    intro g hg
    apply splitNN_joinNN g (hne g hg)
    intro x hx
    exact hprops x (by rw [← hcat]; exact mem_catGroups _ g x hg hx)
  refine ⟨?_, ?_, ?_⟩
  · intro ch hch
    rw [create_llm_chunks_eq_groups doc 2000] at hch
    obtain ⟨g, hg, rfl⟩ := List.mem_map.mp hch
    show (mkParagraphChunk g).size = sumLen (splitNN (mkParagraphChunk g).text)
    rw [show (mkParagraphChunk g).text = joinNN g from rfl,
      show (mkParagraphChunk g).size = sumLen g from rfl, hsplit_group g hg]
  · intro hqne
    rw [create_llm_chunks_eq_groups doc 2000, List.map_map]
    have hmapeq : (chunkGroups 2000 (splitNN doc.export_to_markdown) []).map
          (Chunk.text ∘ mkParagraphChunk)
        = (chunkGroups 2000 (splitNN doc.export_to_markdown) []).map joinNN := by
      simp [Function.comp, mkParagraphChunk]
    rw [hmapeq, joinNN_map_catGroups _ hne, hcat]
    exact splitNN_joinNN _ hqne (fun x hx => ⟨(hprops x hx).1, (hprops x hx).2⟩)
  · intro hlen hsum
    have hgle : ∀ g ∈ chunkGroups 2000 (splitNN doc.export_to_markdown) [], sumLen g ≤ 2000 :=
      chunkGroups_size_le 2000 _ []
        (trimmed_length_le doc.export_to_markdown 2000 hlen) (by simp [sumLen])
    rw [create_llm_chunks_eq_groups doc 2000, List.length_map]
    rcases hgss : chunkGroups 2000 (splitNN doc.export_to_markdown) [] with _ | ⟨g, _ | ⟨g2, gss'⟩⟩
    · exfalso
      rw [hgss, show catGroups [] = [] from rfl] at hcat
      rw [← hcat] at hsum
      simp [sumLen] at hsum
    · exfalso
      have hle : sumLen g ≤ 2000 := hgle g (by rw [hgss]; simp)
      have hcg : catGroups [g] = g := by
        rw [catGroups_cons, show catGroups [] = [] from rfl, List.append_nil]
      rw [hgss, hcg] at hcat
      rw [← hcat] at hsum
      omega
    · simp

theorem trimmedParagraphs_docC1 :
    trimmedParagraphs docC1.export_to_markdown
      = [List.replicate 1500 'a', List.replicate 1500 'a'] := by
  show trimmedParagraphs (List.replicate 1500 'a' ++ '\n' :: '\n' :: List.replicate 1500 'a') = _
  rw [trimmedParagraphs,
    splitNN_append_sep _ _ (noNN_of_no_nl _ (rep_a_ne_nl 1500))
      (fun hc => rep_a_ne_nl 1500 '\n' (getLast?_mem_chars _ '\n' hc) rfl),
    splitNN_noNN _ (noNN_of_no_nl _ (rep_a_ne_nl 1500))]
  rw [List.map_cons, List.map_singleton, strip_of_no_ws _ (rep_a_no_ws 1500)]
  have hkeep : (!(List.replicate 1500 'a').isEmpty) = true := by
    simp [isEmpty_false_of_ne_nil (rep_a_ne_nil 1500 (by decide))]
  rw [List.filter_cons, if_pos hkeep, List.filter_cons, if_pos hkeep]
  rfl

theorem docC1_paragraphs_le :
    ∀ p ∈ trimmedParagraphs docC1.export_to_markdown, p.length ≤ 2000 := by
  rw [trimmedParagraphs_docC1]
  intro p hp
  rcases List.mem_cons.mp hp with rfl | hp'
  · simp
  · rcases List.mem_singleton.mp hp' with rfl
    simp

theorem docC1_paragraphs_sum :
    sumLen (trimmedParagraphs docC1.export_to_markdown) > 2000 := by
  rw [trimmedParagraphs_docC1]
  simp [sumLen]

theorem docC1_paragraphs_ne_nil : trimmedParagraphs docC1.export_to_markdown ≠ [] := by
  rw [trimmedParagraphs_docC1]
  simp

/-- Claim C1 witness: the amended claim evaluated on a concrete two-paragraph
markdown of total size 3000, with each inner hypothesis discharged there. -/
theorem claim_C1_witness :
    (∀ ch ∈ create_llm_chunks docC1 2000, ch.size = sumLen (splitNN ch.text))
    ∧ trimmedParagraphs docC1.export_to_markdown ≠ []
    ∧ splitNN (joinNN ((create_llm_chunks docC1 2000).map Chunk.text))
        = trimmedParagraphs docC1.export_to_markdown
    ∧ (∀ p ∈ trimmedParagraphs docC1.export_to_markdown, p.length ≤ 2000)
    ∧ sumLen (trimmedParagraphs docC1.export_to_markdown) > 2000
    ∧ 2 ≤ (create_llm_chunks docC1 2000).length :=
  ⟨(claim_C1 docC1).1, docC1_paragraphs_ne_nil,
    (claim_C1 docC1).2.1 docC1_paragraphs_ne_nil,
    docC1_paragraphs_le, docC1_paragraphs_sum,
    (claim_C1 docC1).2.2 docC1_paragraphs_le docC1_paragraphs_sum⟩

/-- Claim C2 counterexample: on a document whose markdown is a single
2001-character paragraph, create_llm_chunks with max_chunk_size 2000 emits a
chunk whose recorded size is 2001, exceeding the bound. -/
theorem claim_C2_counterexample :
    ¬ ∀ ch ∈ create_llm_chunks docBig 2000, ch.size ≤ 2000 := by
  intro h
  have := h ⟨List.replicate 2001 'a', 2001, "paragraph_group"⟩ (by rw [chunks_docBig]; simp)
  have h2 : (2001 : Nat) ≤ 2000 := this
  omega

/-- Claim C2 (amended): provided every trimmed non-empty paragraph of the
document's markdown is at most 2000 characters long, every chunk returned by
create_llm_chunks with max_chunk_size 2000 has recorded size at most 2000.
(A single paragraph longer than the limit is placed unsplit into its own
over-sized chunk, so the unconditional bound fails.) -/
theorem claim_C2 (doc : Document)
    (hlen : ∀ p ∈ trimmedParagraphs doc.export_to_markdown, p.length ≤ 2000) :
    ∀ ch ∈ create_llm_chunks doc 2000, ch.size ≤ 2000 := by
  intro ch hch
  rw [create_llm_chunks_eq_groups] at hch
  obtain ⟨g, hg, rfl⟩ := List.mem_map.mp hch
  show sumLen g ≤ 2000
  exact chunkGroups_size_le 2000 _ []
    (trimmed_length_le doc.export_to_markdown 2000 hlen) (by simp [sumLen]) g hg

/-- Claim C2 witness: the amended bound evaluated on a small two-paragraph
document. -/
theorem claim_C2_witness :
    (∀ p ∈ trimmedParagraphs docSmall.export_to_markdown, p.length ≤ 2000)
    ∧ ∀ ch ∈ create_llm_chunks docSmall 2000, ch.size ≤ 2000 :=
  ⟨by decide, claim_C2 docSmall (by decide)⟩

/-- Claim C7: for every document whose markdown has at least one trimmed
non-empty paragraph and whose trimmed paragraphs' lengths sum to less than
the maximum chunk size, create_llm_chunks yields exactly one chunk, of type
paragraph_group, whose text is those paragraphs rejoined with the
double-newline separator and whose recorded size is their total length. -/
theorem claim_C7 (doc : Document) (maxSize : Nat)
    (h1 : trimmedParagraphs doc.export_to_markdown ≠ [])
    (h2 : sumLen (trimmedParagraphs doc.export_to_markdown) < maxSize) :
    create_llm_chunks doc maxSize
      = [⟨joinNN (trimmedParagraphs doc.export_to_markdown),
          sumLen (trimmedParagraphs doc.export_to_markdown), "paragraph_group"⟩] := by
  rw [create_llm_chunks_eq_groups]
  have h := chunkGroups_single maxSize (splitNN doc.export_to_markdown) []
    (by
      rw [show ((splitNN doc.export_to_markdown).map strip).filter (fun p => !p.isEmpty)
            = trimmedParagraphs doc.export_to_markdown from rfl]
      simpa [sumLen] using Nat.le_of_lt h2)
  rw [show ((splitNN doc.export_to_markdown).map strip).filter (fun p => !p.isEmpty)
        = trimmedParagraphs doc.export_to_markdown from rfl] at h
  rw [List.nil_append] at h
  rw [h, if_neg (fun hc => h1 (List.isEmpty_iff.mp hc))]
  rfl

/-- Claim C7 witness: the single-chunk law evaluated on a small
two-paragraph document. -/
theorem claim_C7_witness :
    trimmedParagraphs docSmall.export_to_markdown ≠ []
    ∧ sumLen (trimmedParagraphs docSmall.export_to_markdown) < 2000
    ∧ create_llm_chunks docSmall 2000
        = [⟨joinNN (trimmedParagraphs docSmall.export_to_markdown),
            sumLen (trimmedParagraphs docSmall.export_to_markdown), "paragraph_group"⟩] :=
  ⟨by decide, by decide, claim_C7 docSmall 2000 (by decide) (by decide)⟩

/- ### C3 : get_page_count -/

def docPagesEmpty : Document := ⟨none, none, none, some [], []⟩
def docPages2 : Document := ⟨none, none, none, some [(), ()], []⟩

/-- Claim C3 counterexample: a document whose `pages` attribute is present
but empty makes get_page_count return 0, contradicting "the result is
never 0". -/
theorem claim_C3_counterexample : get_page_count docPagesEmpty = 0 := rfl

/-- Claim C3 (amended): get_page_count returns the length of the page
collection when `pages` is present and 1 when it is absent (the embedding is
total, so it cannot raise); the result is 0 exactly when `pages` is present
and empty, so "never 0" does not hold. -/
theorem claim_C3 (doc : Document) :
    (doc.pages = none → get_page_count doc = 1)
    ∧ (∀ pgs, doc.pages = some pgs → get_page_count doc = pgs.length)
    ∧ (get_page_count doc = 0 ↔ doc.pages = some []) := by
  rcases hp : doc.pages with _ | pgs
  · refine ⟨fun _ => by simp [get_page_count, hp], fun pgs hpg => ?_, ?_⟩
    · exact absurd hpg (by simp)
    · simp [get_page_count, hp]
  · refine ⟨fun hn => ?_, fun pgs' hpg => ?_, ?_⟩
    · exact absurd hn (by simp)
    · have he : pgs = pgs' := by injection hpg
      subst he
      simp [get_page_count, hp]
    · simp [get_page_count, hp, List.length_eq_zero]

/-- Claim C3 witness: the amended description evaluated on a concrete
document with two pages. -/
theorem claim_C3_witness :
    docPages2.pages = some [(), ()] ∧ get_page_count docPages2 = 2 :=
  ⟨rfl, (claim_C3 docPages2).2.1 [(), ()] rfl⟩

/- ### C4 / C9 : heading levels -/

/-- Claim C4 counterexample: the label "foo" contains none of the substrings
"title", "h1", "h2", "h3", "h4", yet the processor's heading-level function
_get_header_level returns 1, not the claimed default 2. -/
theorem claim_C4_counterexample :
    (isSubstr ("title".toList) (lowerL ("foo".toList)) = false
     ∧ isSubstr ("h1".toList) (lowerL ("foo".toList)) = false
     ∧ isSubstr ("h2".toList) (lowerL ("foo".toList)) = false
     ∧ isSubstr ("h3".toList) (lowerL ("foo".toList)) = false
     ∧ isSubstr ("h4".toList) (lowerL ("foo".toList)) = false)
    ∧ docling_get_header_level ("foo".toList) ≠ 2 := by decide

/-- Claim C4 (amended): for every heading label whose lower-cased form
contains none of "title", "h1", "h2", "h3", "h4", app.py's get_heading_level
returns the default level 2, while the processor's _get_header_level returns
its default level 1. -/
theorem claim_C4 (label : List Char)
    (h1 : isSubstr ("title".toList) (lowerL label) = false)
    (h2 : isSubstr ("h1".toList) (lowerL label) = false)
    (h3 : isSubstr ("h2".toList) (lowerL label) = false)
    (h4 : isSubstr ("h3".toList) (lowerL label) = false)
    (h5 : isSubstr ("h4".toList) (lowerL label) = false) :
    get_heading_level label = 2 ∧ docling_get_header_level label = 1 := by
  have h1' : isSubstr ('t' :: 'i' :: 't' :: 'l' :: 'e' :: []) (lowerL label) = false := h1
  have h2' : isSubstr ('h' :: '1' :: []) (lowerL label) = false := h2
  have h3' : isSubstr ('h' :: '2' :: []) (lowerL label) = false := h3
  have h4' : isSubstr ('h' :: '3' :: []) (lowerL label) = false := h4
  have h5' : isSubstr ('h' :: '4' :: []) (lowerL label) = false := h5
  constructor
  · simp [get_heading_level, h1', h2', h3', h4', h5']
  · simp [docling_get_header_level, h1', h2', h3', h4', h5']

/-- Claim C4 witness: the amended defaults evaluated on the label
"paragraph". -/
theorem claim_C4_witness :
    get_heading_level ("paragraph".toList) = 2
    ∧ docling_get_header_level ("paragraph".toList) = 1 :=
  claim_C4 ("paragraph".toList) (by decide) (by decide) (by decide) (by decide) (by decide)

/-- Claim C9: every heading label whose lower-cased form contains "title"
is assigned level 1 by both heading-level functions, regardless of which
other substrings the label also contains. -/
theorem claim_C9 (label : List Char)
    (h : isSubstr ("title".toList) (lowerL label) = true) :
    get_heading_level label = 1 ∧ docling_get_header_level label = 1 := by
  have h' : isSubstr ('t' :: 'i' :: 't' :: 'l' :: 'e' :: []) (lowerL label) = true := h
  constructor
  · simp [get_heading_level, h']
  · simp [docling_get_header_level, h']

/-- Claim C9 witness: the label "SubTitle-h3" contains "title" (mixed case)
together with "h3", and both functions still assign level 1. -/
theorem claim_C9_witness :
    isSubstr ("title".toList) (lowerL ("SubTitle-h3".toList)) = true
    ∧ get_heading_level ("SubTitle-h3".toList) = 1
    ∧ docling_get_header_level ("SubTitle-h3".toList) = 1 :=
  ⟨by decide, (claim_C9 ("SubTitle-h3".toList) (by decide)).1,
    (claim_C9 ("SubTitle-h3".toList) (by decide)).2⟩

/- ### C10 : the outline title is never populated -/

def docTitle : Document :=
  ⟨some [⟨"Hello".toList, some ("title".toList), none⟩], none, none, none, []⟩

/-- Claim C10: for every document, the outline produced by
extract_document_structure has title = none — the title field is initialised
to None and never assigned — and a text item whose truthy label contains
"title" is recorded only as a section entry. -/
theorem claim_C10 (doc : Document) :
    (extract_document_structure doc).title = none
    ∧ ∀ ts ti l, doc.texts = some ts → ti ∈ ts → ti.label = some l → l ≠ [] →
        isSubstr ("title".toList) (lowerL l) = true →
        (⟨get_heading_level l, strip ti.text, l⟩ : SectionEntry)
          ∈ (extract_document_structure doc).sections := by
  refine ⟨rfl, ?_⟩
  intro ts ti l hts hti hl hlne hsub
  show _ ∈ (extract_document_structure doc).sections
  rw [extract_document_structure]
  simp only [hts]
  apply List.mem_filterMap.mpr
  refine ⟨ti, hti, ?_⟩
  have hsub' : isSubstr ('t' :: 'i' :: 't' :: 'l' :: 'e' :: []) (lowerL l) = true := hsub
  simp [sectionOf, hl, hlne, hsub']

/-- Claim C10 witness: on a document containing one "title"-labelled item,
the outline title is still none and the item appears as a section entry. -/
theorem claim_C10_witness :
    (extract_document_structure docTitle).title = none
    ∧ (⟨get_heading_level ("title".toList), strip ("Hello".toList), "title".toList⟩ : SectionEntry)
        ∈ (extract_document_structure docTitle).sections :=
  ⟨(claim_C10 docTitle).1,
    (claim_C10 docTitle).2 _ ⟨"Hello".toList, some ("title".toList), none⟩ _
      rfl (by decide) rfl (by decide) (by decide)⟩

/- ### C8 : /extract error handling -/

/-- Claim C8: with valid auth and a .pdf filename, a conversion/transform
failure makes the /extract handler return HTTP 200 with a body carrying the
filename, success = false, the exception message as error, and content =
none; moreover for every conversion outcome the status is 200 — processing
failures never use an HTTP error status (only auth/validation do). -/
theorem claim_C8 (filename e : List Char)
    (cbu rid : Option (List Char)) (cbOk : Bool)
    (hpdf : hasSuffixL (".pdf".toList) (lowerL filename) = true) :
    extract_document true filename (Except.error e) cbu rid cbOk
      = ⟨200, RespBody.extraction ⟨filename, false, none, some e⟩⟩
    ∧ ∀ conv, (extract_document true filename conv cbu rid cbOk).status = 200 := by
  have hpdf' : hasSuffixL ('.' :: 'p' :: 'd' :: 'f' :: []) (lowerL filename) = true := hpdf
  constructor
  · simp [extract_document, hpdf']
  · intro conv
    cases conv with
    | error e' => simp [extract_document, hpdf']
    | ok doc =>
      rcases cbu with _ | u <;> rcases rid with _ | r <;> by_cases hc : cbOk = true <;>
        simp [extract_document, hpdf', hc]

/-- Claim C8 witness: the error-path response evaluated on a concrete failed
upload. -/
theorem claim_C8_witness :
    hasSuffixL (".pdf".toList) (lowerL ("x.pdf".toList)) = true
    ∧ (extract_document true ("x.pdf".toList) (Except.error ("boom".toList)) none none false
        = ⟨200, RespBody.extraction ⟨"x.pdf".toList, false, none, some ("boom".toList)⟩⟩
       ∧ ∀ conv, (extract_document true ("x.pdf".toList) conv none none false).status = 200) :=
  ⟨by decide, claim_C8 ("x.pdf".toList) ("boom".toList) none none false (by decide)⟩

/- ### C5 / C6 : the page-aware chunker -/

/- Page carried by the loop at the moment an accumulated group would be
   flushed: the page of the LAST item appended, since `current_page` is
   reassigned on every kept item. -/
def lastPageOf (g : List TextItem) : Option Int :=
  match g.getLast? with
  | none => none
  | some ti => ti.page_no

def chunkOfGroup (docId : List Char) (k : Nat) (g : List TextItem) : DocumentChunk :=
  ⟨docId ++ ("_chunk_".toList) ++ (Nat.repr k).toList,
   joinSpace (g.map (fun ti => strip ti.text)),
   ⟨lastPageOf g, some k, none, "text"⟩, lastPageOf g, "text"⟩

/- Abstraction of the text-item loop of _create_chunks: the groups of kept
   items that each produced text chunk joins together. -/
def itemGroupsLoop : List TextItem → List TextItem → List (List TextItem)
  | [], acc => if acc.isEmpty then [] else [acc]
  | ti :: rest, acc =>
    if (strip ti.text).isEmpty then itemGroupsLoop rest acc
    else if ((pageTruthy (lastPageOf acc) ∧ ti.page_no ≠ lastPageOf acc)
              ∨ (joinSpace (acc.map (fun ti => strip ti.text))).length > 1000)
            ∧ acc ≠ [] then
      acc :: itemGroupsLoop rest [ti]
    else itemGroupsLoop rest (acc ++ [ti])

def chunksFromGroups (docId : List Char) : Nat → List (List TextItem) → List DocumentChunk
  | _, [] => []
  | k, g :: gs => chunkOfGroup docId k g :: chunksFromGroups docId (k + 1) gs

theorem lastPageOf_nil : lastPageOf [] = none := rfl

theorem lastPageOf_singleton (ti : TextItem) : lastPageOf [ti] = ti.page_no := by
  simp [lastPageOf]

theorem lastPageOf_concat (g : List TextItem) (ti : TextItem) :
    lastPageOf (g ++ [ti]) = ti.page_no := by
  simp [lastPageOf, List.getLast?_concat]

theorem isEmpty_map_strip (l : List TextItem) :
    (l.map (fun ti => strip ti.text)).isEmpty = l.isEmpty := by
  cases l <;> rfl

/- Branch equations for createChunksLoop and itemGroupsLoop. -/

theorem createChunksLoop_nil (docId : List Char) (acc : List (List Char))
    (curPage : Option Int) (k : Nat) :
    createChunksLoop docId [] acc curPage k
      = if acc.isEmpty then []
        else [⟨docId ++ ("_chunk_".toList) ++ (Nat.repr k).toList, joinSpace acc,
               ⟨curPage, some k, none, "text"⟩, curPage, "text"⟩] := rfl

theorem createChunksLoop_cons_skip (docId : List Char) (ti : TextItem) (rest : List TextItem)
    (acc : List (List Char)) (curPage : Option Int) (k : Nat)
    (hp : (strip ti.text).isEmpty = true) :
    createChunksLoop docId (ti :: rest) acc curPage k
      = createChunksLoop docId rest acc curPage k := by
  simp [createChunksLoop, hp]

theorem createChunksLoop_cons_flush (docId : List Char) (ti : TextItem) (rest : List TextItem)
    (acc : List (List Char)) (curPage : Option Int) (k : Nat)
    (hp : ¬ (strip ti.text).isEmpty = true)
    (hf : ((pageTruthy curPage ∧ ti.page_no ≠ curPage)
            ∨ (joinSpace acc).length > 1000) ∧ acc ≠ []) :
    createChunksLoop docId (ti :: rest) acc curPage k
      = ⟨docId ++ ("_chunk_".toList) ++ (Nat.repr k).toList, joinSpace acc,
          ⟨curPage, some k, none, "text"⟩, curPage, "text"⟩
        :: createChunksLoop docId rest [strip ti.text] ti.page_no (k + 1) := by
  simp [createChunksLoop, hp, hf]

theorem createChunksLoop_cons_add (docId : List Char) (ti : TextItem) (rest : List TextItem)
    (acc : List (List Char)) (curPage : Option Int) (k : Nat)
    (hp : ¬ (strip ti.text).isEmpty = true)
    (hf : ¬ (((pageTruthy curPage ∧ ti.page_no ≠ curPage)
               ∨ (joinSpace acc).length > 1000) ∧ acc ≠ [])) :
    createChunksLoop docId (ti :: rest) acc curPage k
      = createChunksLoop docId rest (acc ++ [strip ti.text]) ti.page_no k := by
  simp [createChunksLoop, hp, hf]

theorem itemGroupsLoop_nil (acc : List TextItem) :
    itemGroupsLoop [] acc = if acc.isEmpty then [] else [acc] := rfl

theorem itemGroupsLoop_cons_skip (ti : TextItem) (rest acc : List TextItem)
    (hp : (strip ti.text).isEmpty = true) :
    itemGroupsLoop (ti :: rest) acc = itemGroupsLoop rest acc := by
  simp [itemGroupsLoop, hp]

theorem itemGroupsLoop_cons_flush (ti : TextItem) (rest acc : List TextItem)
    (hp : ¬ (strip ti.text).isEmpty = true)
    (hf : ((pageTruthy (lastPageOf acc) ∧ ti.page_no ≠ lastPageOf acc)
            ∨ (joinSpace (acc.map (fun ti => strip ti.text))).length > 1000) ∧ acc ≠ []) :
    itemGroupsLoop (ti :: rest) acc = acc :: itemGroupsLoop rest [ti] := by
  simp [itemGroupsLoop, hp, hf]

theorem itemGroupsLoop_cons_add (ti : TextItem) (rest acc : List TextItem)
    (hp : ¬ (strip ti.text).isEmpty = true)
    (hf : ¬ (((pageTruthy (lastPageOf acc) ∧ ti.page_no ≠ lastPageOf acc)
               ∨ (joinSpace (acc.map (fun ti => strip ti.text))).length > 1000) ∧ acc ≠ [])) :
    itemGroupsLoop (ti :: rest) acc = itemGroupsLoop rest (acc ++ [ti]) := by
  simp [itemGroupsLoop, hp, hf]

/- The chunk loop is the group loop followed by chunk formation, with the
   running page always the page of the last accumulated item. -/
theorem createChunksLoop_eq_groups (docId : List Char) (ts : List TextItem) :
    ∀ (acc : List TextItem) (k : Nat),
      createChunksLoop docId ts (acc.map (fun ti => strip ti.text)) (lastPageOf acc) k
        = chunksFromGroups docId k (itemGroupsLoop ts acc) := by
  induction ts with
  | nil =>
    intro acc k
    rw [createChunksLoop_nil, itemGroupsLoop_nil, isEmpty_map_strip]
    by_cases h : acc.isEmpty = true
    · simp [h, chunksFromGroups]
    · rw [if_neg h, if_neg h]
      rfl
  | cons ti rest ih =>
    intro acc k
    by_cases hp : (strip ti.text).isEmpty = true
    · rw [createChunksLoop_cons_skip docId ti rest _ _ k hp,
        itemGroupsLoop_cons_skip ti rest acc hp]
      exact ih acc k
    · by_cases hf : ((pageTruthy (lastPageOf acc) ∧ ti.page_no ≠ lastPageOf acc)
            ∨ (joinSpace (acc.map (fun ti => strip ti.text))).length > 1000) ∧ acc ≠ []
      · have hfl : ((pageTruthy (lastPageOf acc) ∧ ti.page_no ≠ lastPageOf acc)
            ∨ (joinSpace (acc.map (fun ti => strip ti.text))).length > 1000)
            ∧ acc.map (fun ti => strip ti.text) ≠ [] :=
          ⟨hf.1, fun hnil => hf.2 (by simpa using hnil)⟩
        rw [createChunksLoop_cons_flush docId ti rest _ _ k hp hfl,
          itemGroupsLoop_cons_flush ti rest acc hp hf]
        rw [show chunksFromGroups docId k (acc :: itemGroupsLoop rest [ti])
              = chunkOfGroup docId k acc :: chunksFromGroups docId (k + 1) (itemGroupsLoop rest [ti])
            from rfl]
        congr 1
        have IH := ih [ti] (k + 1)
        rw [List.map_singleton, lastPageOf_singleton] at IH
        exact IH
      · have hfl : ¬ (((pageTruthy (lastPageOf acc) ∧ ti.page_no ≠ lastPageOf acc)
            ∨ (joinSpace (acc.map (fun ti => strip ti.text))).length > 1000)
            ∧ acc.map (fun ti => strip ti.text) ≠ []) := by
          intro hc
          exact hf ⟨hc.1, fun hnil => hc.2 (by simp [hnil])⟩
        rw [createChunksLoop_cons_add docId ti rest _ _ k hp hfl,
          itemGroupsLoop_cons_add ti rest acc hp hf]
        have IH := ih (acc ++ [ti]) k
        rw [List.map_append, List.map_singleton, lastPageOf_concat] at IH
        exact IH

theorem docling_create_chunks_eq (doc : Document) (docId : List Char) :
    docling_create_chunks doc docId
      = (match doc.texts with
         | none => []
         | some ts => chunksFromGroups docId 0 (itemGroupsLoop ts []))
        ++ (match doc.tables with
            | none => []
            | some tbls => tableChunksLoop docId 0 tbls) := by
  rw [docling_create_chunks]
  congr 1
  rcases doc.texts with _ | ts
  · rfl
  · exact createChunksLoop_eq_groups docId ts [] 0

theorem mem_chunksFromGroups (docId : List Char) :
    ∀ (gs : List (List TextItem)) (k : Nat) (ch : DocumentChunk),
      ch ∈ chunksFromGroups docId k gs → ∃ g ∈ gs, ∃ j, ch = chunkOfGroup docId j g := by
  intro gs
  induction gs with
  | nil => intro k ch hch; simp [chunksFromGroups] at hch
  | cons g gs' ih =>
    intro k ch hch
    rw [show chunksFromGroups docId k (g :: gs')
          = chunkOfGroup docId k g :: chunksFromGroups docId (k + 1) gs' from rfl] at hch
    rcases List.mem_cons.mp hch with rfl | hch'
    · exact ⟨g, by simp, k, rfl⟩
    · obtain ⟨g', hg', j, hj⟩ := ih (k + 1) ch hch'
      exact ⟨g', by simp [hg'], j, hj⟩

theorem itemGroupsLoop_ne_nil :
    ∀ (ts acc : List TextItem) (g : List TextItem), g ∈ itemGroupsLoop ts acc → g ≠ [] := by
  intro ts
  induction ts with
  | nil =>
    intro acc g hg
    rw [itemGroupsLoop_nil] at hg
    by_cases h : acc.isEmpty = true <;> simp [h] at hg
    subst hg
    intro hnil
    exact h (by simp [hnil])
  | cons ti rest ih =>
    intro acc g hg
    by_cases hp : (strip ti.text).isEmpty = true
    · exact ih acc g (by rwa [itemGroupsLoop_cons_skip ti rest acc hp] at hg)
    · by_cases hf : ((pageTruthy (lastPageOf acc) ∧ ti.page_no ≠ lastPageOf acc)
            ∨ (joinSpace (acc.map (fun ti => strip ti.text))).length > 1000) ∧ acc ≠ []
      · rw [itemGroupsLoop_cons_flush ti rest acc hp hf] at hg
        rcases List.mem_cons.mp hg with rfl | hg'
        · exact hf.2
        · exact ih [ti] g hg'
      · exact ih (acc ++ [ti]) g (by rwa [itemGroupsLoop_cons_add ti rest acc hp hf] at hg)

theorem tableChunksLoop_type (docId : List Char) :
    ∀ (tbls : List Table) (i : Nat) (ch : DocumentChunk),
      ch ∈ tableChunksLoop docId i tbls → ch.chunk_type = "table" := by
  intro tbls
  induction tbls with
  | nil => intro i ch hch; simp [tableChunksLoop] at hch
  | cons tb rest ih =>
    intro i ch hch
    rw [tableChunksLoop] at hch
    rcases List.mem_cons.mp hch with rfl | hch'
    · rfl
    · exact ih (i + 1) ch hch'

def docC5 : Document :=
  ⟨some [⟨'a' :: [], none, some 0⟩, ⟨'b' :: [], none, some 2⟩], none, none, none, []⟩

/-- Claim C5 counterexample: with text items on pages 0 and 2, page 0 is
falsy so no page-change flush occurs and both items land in one chunk; the
emitted chunk's page_number is 2, the page of the LAST accumulated item,
while the first accumulated item's page is 0. -/
theorem claim_C5_counterexample :
    docling_create_chunks docC5 ('d' :: [])
      = [⟨"d_chunk_0".toList, 'a' :: ' ' :: 'b' :: [],
          ⟨some 2, some 0, none, "text"⟩, some 2, "text"⟩]
    ∧ (docC5.texts.getD []).head?.map TextItem.page_no = some (some 0)
    ∧ (some 2 : Option Int) ≠ some 0 := by
  refine ⟨by decide, by decide, by decide⟩

/-- Claim C5 (amended): in _create_chunks, every emitted text chunk arises
from a non-empty group of consecutively accumulated items, its content is
the space-join of their stripped texts, and its page_number equals the page
number of the LAST item accumulated into that chunk (current_page is
reassigned on every kept item), not the first. -/
theorem claim_C5 (doc : Document) (docId : List Char) (ch : DocumentChunk)
    (hch : ch ∈ docling_create_chunks doc docId) (htype : ch.chunk_type = "text") :
    ∃ g, (∃ ts, doc.texts = some ts ∧ g ∈ itemGroupsLoop ts []) ∧ g ≠ []
      ∧ ch.content = joinSpace (g.map (fun ti => strip ti.text))
      ∧ ch.page_number = lastPageOf g := by
  rw [docling_create_chunks_eq] at hch
  rcases List.mem_append.mp hch with htext | htable
  · rcases hts : doc.texts with _ | ts
    · rw [hts] at htext
      simp at htext
    · rw [hts] at htext
      obtain ⟨g, hg, j, rfl⟩ := mem_chunksFromGroups docId _ 0 ch htext
      exact ⟨g, ⟨ts, rfl, hg⟩, itemGroupsLoop_ne_nil ts [] g hg, rfl, rfl⟩
  · exfalso
    rcases htb : doc.tables with _ | tbls
    · rw [htb] at htable
      simp at htable
    · rw [htb] at htable
      have hty := tableChunksLoop_type docId tbls 0 ch htable
      rw [htype] at hty
      exact absurd hty (by decide)

/-- Claim C5 witness: the amended statement applied to the concrete chunk
produced from items on pages 0 and 2. -/
theorem claim_C5_witness :
    (⟨"d_chunk_0".toList, 'a' :: ' ' :: 'b' :: [],
       ⟨some 2, some 0, none, "text"⟩, some 2, "text"⟩ : DocumentChunk)
      ∈ docling_create_chunks docC5 ('d' :: [])
    ∧ ∃ g, (∃ ts, docC5.texts = some ts ∧ g ∈ itemGroupsLoop ts []) ∧ g ≠ []
        ∧ (⟨"d_chunk_0".toList, 'a' :: ' ' :: 'b' :: [],
            ⟨some 2, some 0, none, "text"⟩, some 2, "text"⟩ : DocumentChunk).content
            = joinSpace (g.map (fun ti => strip ti.text))
        ∧ (⟨"d_chunk_0".toList, 'a' :: ' ' :: 'b' :: [],
            ⟨some 2, some 0, none, "text"⟩, some 2, "text"⟩ : DocumentChunk).page_number
            = lastPageOf g :=
  ⟨by decide, claim_C5 docC5 ('d' :: []) _ (by decide) rfl⟩

def docC6bad : Document :=
  ⟨some [⟨'a' :: [], none, some 0⟩, ⟨'b' :: [], none, some 0⟩, ⟨'c' :: [], none, some 1⟩],
   none, none, none, []⟩

/-- Claim C6 counterexample: for the distinct page numbers p1 = 0 and
p2 = 1 with items [(0,"a"),(0,"b"),(1,"c")] and no tables, _create_chunks
emits a single text chunk "a b c", not the claimed two chunks: page 0 is
falsy in the `current_page and page_no != current_page` test. -/
theorem claim_C6_counterexample :
    (0 : Int) ≠ 1
    ∧ docling_create_chunks docC6bad ('d' :: [])
        = [⟨"d_chunk_0".toList, 'a' :: ' ' :: 'b' :: ' ' :: 'c' :: [],
            ⟨some 1, some 0, none, "text"⟩, some 1, "text"⟩] := by
  refine ⟨by decide, by decide⟩

/-- Claim C6 (amended): for every pair of distinct page numbers p1, p2 with
p1 nonzero (truthy), text items [(p1,"a"),(p1,"b"),(p2,"c")] produce exactly
two text chunks — chunk 0 with content "a b" and page p1, then chunk 1 with
content "c" and page p2 — followed by one table chunk per table. -/
theorem claim_C6 (p1 p2 : Int) (docId : List Char) (tbls : List Table)
    (hp1 : p1 ≠ 0) (hne : p2 ≠ p1) :
    docling_create_chunks
      ⟨some [⟨'a' :: [], none, some p1⟩, ⟨'b' :: [], none, some p1⟩,
             ⟨'c' :: [], none, some p2⟩], some tbls, none, none, []⟩ docId
      = [⟨docId ++ ("_chunk_".toList) ++ (Nat.repr 0).toList, 'a' :: ' ' :: 'b' :: [],
          ⟨some p1, some 0, none, "text"⟩, some p1, "text"⟩,
         ⟨docId ++ ("_chunk_".toList) ++ (Nat.repr 1).toList, 'c' :: [],
          ⟨some p2, some 1, none, "text"⟩, some p2, "text"⟩]
        ++ tableChunksLoop docId 0 tbls := by
  have s1 := createChunksLoop_cons_add docId ⟨'a' :: [], none, some p1⟩
    [⟨'b' :: [], none, some p1⟩, ⟨'c' :: [], none, some p2⟩] [] none 0
    (show ¬ (strip ('a' :: [])).isEmpty = true by decide) (fun hc => hc.2 rfl)
  have s2 := createChunksLoop_cons_add docId ⟨'b' :: [], none, some p1⟩
    [⟨'c' :: [], none, some p2⟩] (('a' :: []) :: []) (some p1) 0
    (show ¬ (strip ('b' :: [])).isEmpty = true by decide)
    (by
      intro hc
      rcases hc.1 with ⟨_, hx⟩ | hlen
      · exact hx rfl
      · have hj : (joinSpace (('a' :: []) :: [])).length = 1 := rfl
        omega)
  have s3 := createChunksLoop_cons_flush docId ⟨'c' :: [], none, some p2⟩
    [] (('a' :: []) :: ('b' :: []) :: []) (some p1) 0
    (show ¬ (strip ('c' :: [])).isEmpty = true by decide)
    (⟨Or.inl ⟨hp1, fun hc => hne (by injection hc)⟩, by simp⟩)
  have hloop : createChunksLoop docId
      (⟨'a' :: [], none, some p1⟩ :: ⟨'b' :: [], none, some p1⟩
        :: ⟨'c' :: [], none, some p2⟩ :: []) [] none 0
      = (⟨docId ++ ("_chunk_".toList) ++ (Nat.repr 0).toList, 'a' :: ' ' :: 'b' :: [],
          ⟨some p1, some 0, none, "text"⟩, some p1, "text"⟩ : DocumentChunk)
        :: (⟨docId ++ ("_chunk_".toList) ++ (Nat.repr 1).toList, 'c' :: [],
            ⟨some p2, some 1, none, "text"⟩, some p2, "text"⟩ : DocumentChunk) :: [] :=
    (s1.trans s2).trans s3
  show createChunksLoop docId
      (⟨'a' :: [], none, some p1⟩ :: ⟨'b' :: [], none, some p1⟩
        :: ⟨'c' :: [], none, some p2⟩ :: []) [] none 0
      ++ tableChunksLoop docId 0 tbls = _
  rw [hloop]

/-- Claim C6 witness: the amended two-chunk law evaluated at p1 = 1, p2 = 2
with no tables. -/
theorem claim_C6_witness :
    (1 : Int) ≠ 0 ∧ (2 : Int) ≠ 1
    ∧ docling_create_chunks
        ⟨some [⟨'a' :: [], none, some 1⟩, ⟨'b' :: [], none, some 1⟩,
               ⟨'c' :: [], none, some 2⟩], some [], none, none, []⟩ ('d' :: [])
        = [⟨('d' :: []) ++ ("_chunk_".toList) ++ (Nat.repr 0).toList, 'a' :: ' ' :: 'b' :: [],
            ⟨some 1, some 0, none, "text"⟩, some 1, "text"⟩,
           ⟨('d' :: []) ++ ("_chunk_".toList) ++ (Nat.repr 1).toList, 'c' :: [],
            ⟨some 2, some 1, none, "text"⟩, some 2, "text"⟩]
          ++ tableChunksLoop ('d' :: []) 0 [] :=
  ⟨by decide, by decide, claim_C6 1 2 ('d' :: []) [] (by decide) (by decide)⟩
